import Mathlib

/-!
Shallow embedding of `src/pages/index.tsx` of icedrone/openapi-autodoc.

The source is a single-page pipeline that turns a parsed OpenAPI document
into a GitBook-style documentation bundle:

* `collateTags` flattens `doc.paths` into endpoints and groups them into a
  JavaScript `Map` keyed by tag *object reference* (plus a synthetic
  untagged tag, plus possibly the value `undefined` when a tag name has no
  match in `doc.tags`);
* `createTagPage` / `createGitBookOpenAPITag` render one markdown page per
  group;
* `createSummaryFile` / `createReadmeFile` / `createZipBundle` assemble the
  archive entries.

Modelling decisions, each forced by a JavaScript semantics detail:

* Map keys are modelled by `TagKey`: `declared i` is the i-th element of
  `doc.tags` (the object reference `Array.prototype.find` returns — `find`
  always yields the *first* name match, so reference identity of a lookup
  result is exactly the index), `untagged` is the per-run
  `{ name: "__internal-untagged" }` object, and `undefinedKey` is the value
  `undefined` produced by a failed `find`.
* A JS `Map` keeps insertion order and updates in place; `TagMap` is an
  association list with exactly those `get`/`set` semantics.
* A thrown `TypeError` (reading `.length` or `.tags` or `.name` of
  `undefined`) aborts the enclosing call; fallible functions return
  `Option`, `none` standing for the exception.
* Template literals stringify `undefined` as the text `"undefined"`; this
  is kept faithfully (`jsInterpOpt`, `externalDocsFragment`).
* JSZip's `bundle.file` overwrites an existing entry at the same path, so
  the archive is a list of (path, contents) in insertion order and
  `zipLookup` returns the last write.
-/

namespace OpenAPIAutodoc

structure ExternalDocs where
  description : String
  url : String
deriving DecidableEq, Repr

structure TagObject where
  name : String
  description : Option String := none
  externalDocs : Option ExternalDocs := none
deriving DecidableEq, Repr

/-- An operation object as the code uses it: only `tags` is read
(`operationObject.tags`); `none` models an object with no `tags` field. -/
structure OperationObject where
  tags : Option (List String)
deriving DecidableEq, Repr

structure Endpoint where
  operationObject : OperationObject
  path : String
  operation : String
deriving DecidableEq, Repr

structure Info where
  title : String
deriving DecidableEq, Repr

/-- The parts of the validated `OpenAPI.Document` the pipeline reads.
`paths` is an ordered mapping path → (ordered mapping method → operation);
`tags` is optional, as in the OpenAPI type. -/
structure OpenAPIDocument where
  info : Info
  paths : List (String × List (String × OperationObject))
  tags : Option (List TagObject)
deriving DecidableEq, Repr

structure GitBookFile where
  path : String
  contents : String
deriving DecidableEq, Repr

/-- Identity of a key of the JS `Map<TagObject, Endpoint[]>`. -/
inductive TagKey where
  | declared (idx : Nat)
  | untagged
  | undefinedKey
deriving DecidableEq, Repr

abbrev TagMap := List (TagKey × List Endpoint)

/-- `Map.prototype.get`. -/
def mapGet : TagMap → TagKey → Option (List Endpoint)
  | [], _ => none
  | e :: rest, k => if e.1 = k then some e.2 else mapGet rest k

/-- `Map.prototype.set`: update in place keeping position, else append. -/
def mapSet : TagMap → TagKey → List Endpoint → TagMap
  | [], k, v => [(k, v)]
  | e :: rest, k, v => if e.1 = k then (k, v) :: rest else e :: mapSet rest k v

/-- `tagMap.set(k, [...(tagMap.get(k) || []), endpoint])`. -/
def appendTo (m : TagMap) (k : TagKey) (e : Endpoint) : TagMap :=
  mapSet m k ((mapGet m k).getD [] ++ [e])

/-- `Object.entries(api.paths).flatMap(...)` (lines 103–111 of the source):
flatten paths × methods into endpoints in declaration order. -/
def flattenOperations (paths : List (String × List (String × OperationObject))) :
    List Endpoint :=
  paths.flatMap (fun po => po.2.map (fun op => ⟨op.2, po.1, op.1⟩))

/-- `api.tags.find(({name}) => name === tagName)` as the identity of the
found object: the index of the first name match, or `undefinedKey` for a missed
lookup (JS `undefined`). -/
def resolveTagName (tags : List TagObject) (tagName : String) : TagKey :=
  match tags.findIdx? (fun t => decide (t.name = tagName)) with
  | some i => .declared i
  | none => .undefinedKey

/-- Evaluating `api.tags.find(...)` for one tag name: `none` is the
`TypeError` of calling `.find` on an absent `api.tags`. -/
def lookupKey (apiTags : Option (List TagObject)) (tagName : String) :
    Option TagKey :=
  match apiTags with
  | none => none
  | some tags => some (resolveTagName tags tagName)

/-- The body of `operations.forEach` in `collateTags` (lines 112–128).
`none` is the `TypeError` thrown when `operationObject.tags` is missing
(`.length` of `undefined`) or when `api.tags` is missing while a tag name
is being looked up (`.find` of `undefined`). -/
def processEndpoint (apiTags : Option (List TagObject)) (m : TagMap)
    (e : Endpoint) : Option TagMap :=
  match e.operationObject.tags with
  | none => none
  | some ts =>
    let m1 := if ts.length = 0 then appendTo m .untagged e else m
    ts.foldlM (fun acc tagName =>
      (lookupKey apiTags tagName).map (fun tag => appendTo acc tag e)) m1

/-- `collateTags` (lines 100–130). -/
def collateTags (api : OpenAPIDocument) : Option TagMap :=
  (flattenOperations api.paths).foldlM (processEndpoint api.tags) []

/-- A template literal interpolates `undefined` as the text `"undefined"`. -/
def jsInterpOpt : Option String → String
  | none => "undefined"
  | some s => s

/-- `tag.externalDocs && ` `[desc](url)` — the `&&` evaluates to the link
string when `externalDocs` is truthy and to `undefined` (interpolated as
`"undefined"`) otherwise. -/
def externalDocsFragment : Option ExternalDocs → String
  | none => "undefined"
  | some ed => "[" ++ ed.description ++ "](" ++ ed.url ++ ")"

/-- `String.prototype.trim`: strip leading and trailing whitespace (the
whitespace characters that occur in these templates are ASCII space and
newline). Defined by structural recursion over the character list so that
concrete pages evaluate inside the kernel. -/
def jsTrim (s : String) : String :=
  ⟨((s.data.dropWhile Char.isWhitespace).reverse.dropWhile
      Char.isWhitespace).reverse⟩

/-- The `src` attribute the swagger block template hard-codes. -/
def gitbookAssetsSpecRef : String := "./.gitbook/assets/openapi.yaml"

/-- `createGitBookOpenAPITag` (lines 23–29), byte for byte. -/
def createGitBookOpenAPITag (endpoint : Endpoint) : String :=
  "\n\x7b% swagger src=\"" ++ gitbookAssetsSpecRef ++ "\" path=\""
    ++ endpoint.path ++ "\" method=\"" ++ endpoint.operation
    ++ "\" %\x7d\n[openapi.yaml](<" ++ gitbookAssetsSpecRef
    ++ ">)\n\x7b% endswagger %\x7d\n  "

/-- `createTagPage` (lines 31–48): the template literal then `.trim()`. -/
def createTagPage (tag : TagObject) (endpoints : List Endpoint) : GitBookFile :=
  { path := tag.name ++ ".md"
    contents := jsTrim
      ("\n# " ++ tag.name ++ "\n\n" ++ jsInterpOpt tag.description
        ++ "\n\n" ++ externalDocsFragment tag.externalDocs ++ "\n\n"
        ++ String.intercalate "\n\n" (endpoints.map createGitBookOpenAPITag)
        ++ "\n  ") }

/-- `createSummaryFile` (lines 50–60); the `console.log` is ambient logging
with no effect on the returned string. -/
def createSummaryFile (gitBookFiles : List GitBookFile) : String :=
  "# Table of contents\n\n"
    ++ String.intercalate "\n"
      (gitBookFiles.map (fun f => "[" ++ f.path ++ "](" ++ f.path ++ ")"))

/-- `createReadmeFile` (lines 62–64). -/
def createReadmeFile (spec : OpenAPIDocument) : String :=
  "# " ++ spec.info.title

/-- `createZipBundle` (lines 66–80) as the ordered list of
(entry path, contents) writes; `bundle.folder(".gitbook").file("openapi.yaml", spec)`
writes the entry `.gitbook/openapi.yaml`. -/
def createZipBundle (gitBookFiles : List GitBookFile) (spec : String)
    (parsedSpec : OpenAPIDocument) : List (String × String) :=
  ("SUMMARY.md", createSummaryFile gitBookFiles)
    :: ("README.md", createReadmeFile parsedSpec)
    :: (gitBookFiles.map (fun f => (f.path, f.contents))
        ++ [(".gitbook/openapi.yaml", spec)])

/-- Reading an entry of the finished zip: JSZip overwrites on duplicate
paths, so the last write at a path wins. -/
def zipLookup (entries : List (String × String)) (p : String) : Option String :=
  (entries.reverse.find? (fun e => decide (e.1 = p))).map (·.2)

/-- `const untaggedTag: TagObject = { name: "__internal-untagged" }`. -/
def untaggedTag : TagObject := { name := "__internal-untagged" }

/-- The tag object a map key stands for: `undefinedKey` is JS `undefined`, whose
`.name` access throws. -/
def derefTagKey (api : OpenAPIDocument) : TagKey → Option TagObject
  | .declared i => (api.tags.getD []).get? i
  | .untagged => some untaggedTag
  | .undefinedKey => none

/-- `makePagesForTagGroups` (lines 92–98): map over the entries in
insertion order; `none` is the `TypeError` from `tag.name` when the key is
`undefined`. -/
def makePagesForTagGroups (api : OpenAPIDocument) (m : TagMap) :
    Option (List GitBookFile) :=
  m.mapM (fun g => (derefTagKey api g.1).map (fun t => createTagPage t g.2))

/-- The core of `handleFileUpload` (lines 144–150) after parsing/validation:
collate, render pages, bundle. Parsing (`YAML.parse`,
`SwaggerParser.validate`) is the out-of-scope SpecParser; the raw decoded
text flows into the bundle unchanged. -/
def runPipeline (rawText : String) (api : OpenAPIDocument) :
    Option (List (String × String)) := do
  let m ← collateTags api
  let pages ← makePagesForTagGroups api m
  pure (createZipBundle pages rawText api)

/-! ## Derived definitions used to state and prove properties -/

/-- The sequence of map keys `collateTags` appends endpoint `e` to, in
append order: the untagged key when the `tags` array is empty, then one
key per listed tag name. `none` mirrors the `TypeError` cases of
`processEndpoint`. -/
def endpointKeys (apiTags : Option (List TagObject)) (e : Endpoint) :
    Option (List TagKey) :=
  match e.operationObject.tags with
  | none => none
  | some ts =>
    (ts.mapM (lookupKey apiTags)).map
      (fun ks => (if ts.length = 0 then [TagKey.untagged] else []) ++ ks)

/-- The endpoints that end up under key `k`, in traversal order, with
multiplicity (an endpoint listing the same tag twice is appended twice). -/
def groupOf (apiTags : Option (List TagObject)) (L : List Endpoint)
    (k : TagKey) : List Endpoint :=
  L.flatMap (fun e => List.replicate (((endpointKeys apiTags e).getD []).count k) e)

/-- Extending the optional group stored at a key by newly appended
endpoints: a key never written stays absent. -/
def extendGroup (prev : Option (List Endpoint)) (grp : List Endpoint) :
    Option (List Endpoint) :=
  match prev, grp with
  | none, [] => none
  | p, n => some (p.getD [] ++ n)

/-- Effect of one `Map.set` on the key order: existing keys keep their
position, a new key goes to the back. -/
def insertKey (acc : List TagKey) (k : TagKey) : List TagKey :=
  if k ∈ acc then acc else acc ++ [k]

/-- First-encounter order of a key sequence: the iteration order of a JS
`Map` populated by that sequence of `set`s. -/
def firstOccurrences (l : List TagKey) : List TagKey :=
  l.foldl insertKey []

/-- Resolving a `./`-relative reference against the archive root. -/
def resolveRelative (s : String) : String :=
  if s.data.take 2 = ['.', '/'] then ⟨s.data.drop 2⟩ else s

/-! ## Concrete example inputs (used by counterexamples and witnesses) -/

def petsTag : TagObject := { name := "pets" }

def petsOperation : OperationObject := { tags := some ["pets"] }

def ownersOperation : OperationObject := { tags := some [] }

def petsEndpoint : Endpoint :=
  { operationObject := petsOperation, path := "/pets", operation := "get" }

def ownersEndpoint : Endpoint :=
  { operationObject := ownersOperation, path := "/owners", operation := "post" }

/-- The spec's example scenario: `info.title = "Pet Store"`, one declared
tag `pets`, a tagged `GET /pets` and an untagged `POST /owners`. -/
def petStoreDoc : OpenAPIDocument :=
  { info := { title := "Pet Store" },
    paths := [("/pets", [("get", petsOperation)]),
              ("/owners", [("post", ownersOperation)])],
    tags := some [petsTag] }

def petStoreRaw : String := "openapi: 3.0.0\ninfo:\n  title: Pet Store\n"

/-- The tag map `collateTags` produces for `petStoreDoc`. -/
def petStoreMap : TagMap :=
  [(TagKey.declared 0, [petsEndpoint]), (TagKey.untagged, [ownersEndpoint])]

/-- The pages `makePagesForTagGroups` produces for `petStoreMap`. -/
def petStorePages : List GitBookFile :=
  [createTagPage petsTag [petsEndpoint],
   createTagPage untaggedTag [ownersEndpoint]]

/-- A document whose only operation references the tag name `"missing"`,
absent from `doc.tags`. -/
def missingTagOperation : OperationObject := { tags := some ["missing"] }

def missingTagEndpoint : Endpoint :=
  { operationObject := missingTagOperation, path := "/x", operation := "get" }

def missingTagDoc : OpenAPIDocument :=
  { info := { title := "t" },
    paths := [("/x", [("get", missingTagOperation)])],
    tags := some [] }

/-- A document whose only operation object has no `tags` field at all. -/
def noTagsFieldDoc : OpenAPIDocument :=
  { info := { title := "t" },
    paths := [("/a", [("get", { tags := none })])],
    tags := some [] }

/-- A document where every operation carries at least one tag. -/
def allTaggedDoc : OpenAPIDocument :=
  { info := { title := "Pet Store" },
    paths := [("/pets", [("get", petsOperation)])],
    tags := some [petsTag] }

/-! ## Lemmas about the map model -/

lemma mapGet_mapSet_self (m : TagMap) (k : TagKey) (v : List Endpoint) :
    mapGet (mapSet m k v) k = some v := by
  induction m with
  | nil => simp [mapSet, mapGet]
  | cons e rest ih =>
    by_cases h : e.1 = k
    · simp [mapSet, h, mapGet]
    · simp [mapSet, h, mapGet, ih]

lemma mapGet_mapSet_ne (m : TagMap) (k k' : TagKey) (v : List Endpoint)
    (h : k' ≠ k) : mapGet (mapSet m k v) k' = mapGet m k' := by
  induction m with
  | nil => simp [mapSet, mapGet, Ne.symm h]
  | cons e rest ih =>
    by_cases he : e.1 = k
    · subst he
      simp [mapSet, mapGet, Ne.symm h]
    · simp only [mapSet, if_neg he, mapGet]
      by_cases he' : e.1 = k'
      · simp [he']
      · simp [he', ih]

lemma mapSet_keys (m : TagMap) (k : TagKey) (v : List Endpoint) :
    (mapSet m k v).map Prod.fst
      = if k ∈ m.map Prod.fst then m.map Prod.fst else m.map Prod.fst ++ [k] := by
  induction m with
  | nil => simp [mapSet]
  | cons e rest ih =>
    by_cases he : e.1 = k
    · simp [mapSet, he]
    · simp only [mapSet, if_neg he, List.map_cons, ih]
      by_cases hk : k ∈ rest.map Prod.fst
      · simp [hk, Ne.symm he]
      · simp [hk, Ne.symm he]

lemma mapGet_eq_none_iff (m : TagMap) (k : TagKey) :
    mapGet m k = none ↔ k ∉ m.map Prod.fst := by
  induction m with
  | nil => simp [mapGet]
  | cons e rest ih =>
    simp only [mapGet, List.map_cons, List.mem_cons]
    by_cases he : e.1 = k
    · simp [he]
    · simp [he, ih, Ne.symm he]

lemma mem_of_mapGet_eq_some (m : TagMap) (k : TagKey) (g : List Endpoint)
    (h : mapGet m k = some g) : (k, g) ∈ m := by
  induction m with
  | nil => simp [mapGet] at h
  | cons e rest ih =>
    by_cases he : e.1 = k
    · simp only [mapGet, if_pos he] at h
      obtain rfl := Option.some.inj h
      exact List.mem_cons.mpr (Or.inl (by rw [← he]))
    · simp only [mapGet, if_neg he] at h
      exact List.mem_cons_of_mem _ (ih h)

lemma mapGet_of_mem (m : TagMap) (hnd : (m.map Prod.fst).Nodup)
    (kg : TagKey × List Endpoint) (h : kg ∈ m) : mapGet m kg.1 = some kg.2 := by
  induction m with
  | nil => simp at h
  | cons e rest ih =>
    rcases List.mem_cons.mp h with rfl | hmem
    · simp [mapGet]
    · have hne : e.1 ≠ kg.1 := by
        intro hEq
        have : kg.1 ∈ rest.map Prod.fst := List.mem_map_of_mem Prod.fst hmem
        rw [← hEq] at this
        exact (List.nodup_cons.mp (by simpa using hnd)).1 this
      simp only [mapGet, if_neg hne]
      exact ih (List.nodup_cons.mp (by simpa using hnd)).2 hmem

lemma mapGet_appendTo_self (m : TagMap) (k : TagKey) (e : Endpoint) :
    mapGet (appendTo m k e) k = some ((mapGet m k).getD [] ++ [e]) :=
  mapGet_mapSet_self m k _

lemma mapGet_appendTo_ne (m : TagMap) (k k' : TagKey) (e : Endpoint)
    (h : k' ≠ k) : mapGet (appendTo m k e) k' = mapGet m k' :=
  mapGet_mapSet_ne m k k' _ h

lemma appendTo_keys (m : TagMap) (k : TagKey) (e : Endpoint) :
    (appendTo m k e).map Prod.fst = insertKey (m.map Prod.fst) k := by
  rw [appendTo, mapSet_keys, insertKey]

lemma insertKey_nodup (l : List TagKey) (k : TagKey) (h : l.Nodup) :
    (insertKey l k).Nodup := by
  rw [insertKey]
  by_cases hk : k ∈ l
  · simpa [hk] using h
  · simp [hk, List.nodup_append, h]

lemma foldl_insertKey_nodup (ks : List TagKey) :
    ∀ l : List TagKey, l.Nodup → (ks.foldl insertKey l).Nodup := by
  induction ks with
  | nil => intro l h; simpa using h
  | cons k ks ih =>
    intro l h
    rw [List.foldl_cons]
    exact ih _ (insertKey_nodup l k h)

/-! ## Lemmas about group extension -/

lemma extendGroup_nil (p : Option (List Endpoint)) : extendGroup p [] = p := by
  cases p <;> simp [extendGroup]

lemma extendGroup_append (p : Option (List Endpoint)) (a b : List Endpoint) :
    extendGroup (extendGroup p a) b = extendGroup p (a ++ b) := by
  cases p <;> cases a <;> cases b <;> simp [extendGroup]

lemma extendGroup_none_eq_some (g kg : List Endpoint)
    (h : extendGroup none g = some kg) : g = kg := by
  cases g with
  | nil => simp [extendGroup] at h
  | cons x xs => simpa [extendGroup] using h

lemma extendGroup_none_of_ne_nil (g : List Endpoint) (h : g ≠ []) :
    extendGroup none g = some g := by
  cases g with
  | nil => exact absurd rfl h
  | cons x xs => simp [extendGroup]

lemma extendGroup_snoc_replicate (p : Option (List Endpoint)) (e : Endpoint)
    (c : Nat) :
    extendGroup (some (p.getD [] ++ [e])) (List.replicate c e)
      = extendGroup p (List.replicate (c + 1) e) := by
  cases c with
  | zero => cases p <;> simp [extendGroup]
  | succ c => cases p <;> simp [extendGroup, List.replicate_succ]

/-! ## Characterizing `collateTags` -/

lemma mapM_some_eq {α β : Type} (g : α → β) :
    ∀ l : List α, l.mapM (fun a => some (g a)) = some (l.map g) := by
  intro l
  induction l with
  | nil => rfl
  | cons a l ih => rw [List.mapM_cons, ih]; rfl

lemma foldlM_some_eq (g : TagMap → String → TagMap) :
    ∀ (ts : List String) (acc : TagMap),
      ts.foldlM (fun a n => some (g a n)) acc = some (ts.foldl g acc) := by
  intro ts
  induction ts with
  | nil => intro acc; rfl
  | cons n ns ih => intro acc; rw [List.foldlM_cons, List.foldl_cons]; exact ih (g acc n)

lemma resolveTagName_ne_untagged (tags : List TagObject) (n : String) :
    resolveTagName tags n ≠ TagKey.untagged := by
  rw [resolveTagName]
  cases tags.findIdx? (fun t => decide (t.name = n)) <;> simp

lemma foldl_appendTo_get (tags : List TagObject) (e : Endpoint) :
    ∀ (ts : List String) (acc : TagMap) (k : TagKey),
      mapGet (ts.foldl (fun a n => appendTo a (resolveTagName tags n) e) acc) k
        = extendGroup (mapGet acc k)
            (List.replicate ((ts.map (resolveTagName tags)).count k) e) := by
  intro ts
  induction ts with
  | nil => intro acc k; simp [extendGroup_nil]
  | cons n ns ih =>
    intro acc k
    rw [List.foldl_cons, ih, List.map_cons]
    by_cases hk : k = resolveTagName tags n
    · rw [← hk, mapGet_appendTo_self]
      have hc : (k :: ns.map (resolveTagName tags)).count k
          = (ns.map (resolveTagName tags)).count k + 1 := by
        simp [List.count_cons]
      rw [hc, extendGroup_snoc_replicate]
    · rw [mapGet_appendTo_ne _ _ _ _ hk]
      have hc : (resolveTagName tags n :: ns.map (resolveTagName tags)).count k
          = (ns.map (resolveTagName tags)).count k := by
        simp [List.count_cons, Ne.symm hk]
      rw [hc]

lemma foldl_appendTo_keys (tags : List TagObject) (e : Endpoint) :
    ∀ (ts : List String) (acc : TagMap),
      ((ts.foldl (fun a n => appendTo a (resolveTagName tags n) e) acc).map Prod.fst)
        = (ts.map (resolveTagName tags)).foldl insertKey (acc.map Prod.fst) := by
  intro ts
  induction ts with
  | nil => intro acc; rfl
  | cons n ns ih =>
    intro acc
    rw [List.foldl_cons, ih, List.map_cons, List.foldl_cons, appendTo_keys]

lemma lookupKey_some (tags : List TagObject) :
    lookupKey (some tags) = fun n => some (resolveTagName tags n) := rfl

lemma endpointKeys_ne_nil (t : Option (List TagObject)) (e : Endpoint)
    (ks : List TagKey) (h : endpointKeys t e = some ks) : ks ≠ [] := by
  cases hts : e.operationObject.tags with
  | none => simp [endpointKeys, hts] at h
  | some ts =>
    cases ts with
    | nil =>
      simp only [endpointKeys, hts, List.mapM_nil] at h
      obtain rfl : [TagKey.untagged] = ks := by simpa using h
      simp
    | cons n ns =>
      cases t with
      | none =>
        rw [endpointKeys] at h
        simp only [hts] at h
        rw [show List.mapM (lookupKey none) (n :: ns) = none from rfl] at h
        simp at h
      | some tags =>
        rw [endpointKeys] at h
        simp only [hts, lookupKey_some, mapM_some_eq] at h
        obtain rfl : (resolveTagName tags n) :: ns.map (resolveTagName tags) = ks := by
          simpa using h
        simp

lemma count_untagged_singleton :
    List.count TagKey.untagged [TagKey.untagged] = 1 := by simp

lemma processEndpoint_some_char (t : Option (List TagObject)) (m m₁ : TagMap)
    (e : Endpoint) (h : processEndpoint t m e = some m₁) :
    ∃ ks, endpointKeys t e = some ks
      ∧ (∀ k, mapGet m₁ k
          = extendGroup (mapGet m k) (List.replicate (ks.count k) e))
      ∧ m₁.map Prod.fst = ks.foldl insertKey (m.map Prod.fst) := by
  cases hts : e.operationObject.tags with
  | none => simp [processEndpoint, hts] at h
  | some ts =>
    simp only [processEndpoint, hts] at h
    cases ts with
    | nil =>
      simp only [List.length_nil, if_pos rfl, List.foldlM_nil] at h
      obtain rfl : appendTo m TagKey.untagged e = m₁ := by simpa using h
      refine ⟨[TagKey.untagged], ?_, ?_, ?_⟩
      · rw [endpointKeys]
        simp only [hts, List.mapM_nil]
        rfl
      · intro k
        by_cases hk : k = TagKey.untagged
        · subst hk
          rw [mapGet_appendTo_self, count_untagged_singleton]
          cases hp : mapGet m TagKey.untagged <;> simp [extendGroup]
        · rw [mapGet_appendTo_ne _ _ _ _ hk]
          have hc : List.count k [TagKey.untagged] = 0 := by
            simp [List.count_singleton', Ne.symm hk]
          rw [hc, List.replicate_zero, extendGroup_nil]
      · rw [appendTo_keys, List.foldl_cons, List.foldl_nil]
    | cons n ns =>
      simp only [List.length_cons] at h
      rw [if_neg (by simp)] at h
      cases t with
      | none =>
        rw [List.foldlM_cons] at h
        rw [show ((lookupKey none n).map fun tag => appendTo m tag e) = none
              from rfl] at h
        simp at h
      | some tags =>
        rw [show (fun acc tagName =>
                (lookupKey (some tags) tagName).map fun tag => appendTo acc tag e)
              = (fun acc tagName =>
                  some (appendTo acc (resolveTagName tags tagName) e))
              from rfl] at h
        rw [foldlM_some_eq] at h
        obtain rfl := Option.some.inj h
        refine ⟨(n :: ns).map (resolveTagName tags), ?_, ?_, ?_⟩
        · rw [endpointKeys]
          simp only [hts, lookupKey_some]
          rw [mapM_some_eq]
          simp
        · intro k
          exact foldl_appendTo_get tags e (n :: ns) m k
        · exact foldl_appendTo_keys tags e (n :: ns) m

lemma foldlM_processEndpoint_char (t : Option (List TagObject)) :
    ∀ (L : List Endpoint) (m m' : TagMap),
      L.foldlM (processEndpoint t) m = some m' →
      (∀ k, mapGet m' k = extendGroup (mapGet m k) (groupOf t L k))
      ∧ m'.map Prod.fst
          = (L.flatMap (fun e => (endpointKeys t e).getD [])).foldl insertKey
              (m.map Prod.fst) := by
  intro L
  induction L with
  | nil =>
    intro m m' h
    obtain rfl : m = m' := by simpa using h
    constructor
    · intro k; simp [groupOf, extendGroup_nil]
    · simp
  | cons e L ih =>
    intro m m' h
    rw [List.foldlM_cons] at h
    cases hpe : processEndpoint t m e with
    | none => rw [hpe] at h; simp at h
    | some m₁ =>
      rw [hpe] at h
      obtain ⟨ks, hks, hget, hkeys⟩ := processEndpoint_some_char t m m₁ e hpe
      obtain ⟨ihget, ihkeys⟩ := ih m₁ m' h
      constructor
      · intro k
        rw [ihget k, hget k, extendGroup_append]
        have hgo : groupOf t (e :: L) k
            = List.replicate (ks.count k) e ++ groupOf t L k := by
          simp [groupOf, List.flatMap_cons, hks]
        rw [hgo]
      · rw [ihkeys, hkeys]
        have hfm : (e :: L).flatMap (fun a => (endpointKeys t a).getD [])
            = ks ++ L.flatMap (fun a => (endpointKeys t a).getD []) := by
          simp [List.flatMap_cons, hks]
        rw [hfm, List.foldl_append]

lemma foldlM_processEndpoint_mem (t : Option (List TagObject)) :
    ∀ (L : List Endpoint) (m m' : TagMap),
      L.foldlM (processEndpoint t) m = some m' →
      ∀ e ∈ L, ∃ ks, endpointKeys t e = some ks := by
  intro L
  induction L with
  | nil => intro m m' _ e he; simp at he
  | cons a L ih =>
    intro m m' h e he
    rw [List.foldlM_cons] at h
    cases hpe : processEndpoint t m a with
    | none => rw [hpe] at h; simp at h
    | some m₁ =>
      rw [hpe] at h
      rcases List.mem_cons.mp he with rfl | heL
      · obtain ⟨ks, hks, -, -⟩ := processEndpoint_some_char t m m₁ e hpe
        exact ⟨ks, hks⟩
      · exact ih m₁ m' h e heL

/-- The content of every group of a successful `collateTags` run. -/
lemma collateTags_char (api : OpenAPIDocument) (m : TagMap)
    (h : collateTags api = some m) :
    (∀ k, mapGet m k
        = extendGroup none (groupOf api.tags (flattenOperations api.paths) k))
    ∧ m.map Prod.fst
        = firstOccurrences ((flattenOperations api.paths).flatMap
            (fun e => (endpointKeys api.tags e).getD []))
    ∧ (m.map Prod.fst).Nodup := by
  obtain ⟨hget, hkeys⟩ :=
    foldlM_processEndpoint_char api.tags (flattenOperations api.paths) [] m h
  refine ⟨fun k => by simpa [mapGet] using hget k,
    by simpa [firstOccurrences] using hkeys, ?_⟩
  have : m.map Prod.fst
      = ((flattenOperations api.paths).flatMap
          (fun e => (endpointKeys api.tags e).getD [])).foldl insertKey [] := by
    simpa using hkeys
  rw [this]
  exact foldl_insertKey_nodup _ [] List.nodup_nil

lemma collateTags_mem_keys (api : OpenAPIDocument) (m : TagMap)
    (h : collateTags api = some m) (e : Endpoint)
    (he : e ∈ flattenOperations api.paths) :
    ∃ ks, endpointKeys api.tags e = some ks :=
  foldlM_processEndpoint_mem api.tags (flattenOperations api.paths) [] m h e he

/-! ## Lemmas for the crash cases -/

lemma processEndpoint_none_of_tags_none (t : Option (List TagObject))
    (m : TagMap) (e : Endpoint) (h : e.operationObject.tags = none) :
    processEndpoint t m e = none := by
  simp [processEndpoint, h]

lemma foldlM_processEndpoint_none (t : Option (List TagObject)) :
    ∀ L : List Endpoint, (∃ e ∈ L, e.operationObject.tags = none) →
      ∀ m : TagMap, L.foldlM (processEndpoint t) m = none := by
  intro L
  induction L with
  | nil => rintro ⟨e, he, -⟩; simp at he
  | cons a L ih =>
    rintro ⟨e, he, hnone⟩ m
    rw [List.foldlM_cons]
    rcases List.mem_cons.mp he with rfl | heL
    · rw [processEndpoint_none_of_tags_none t m e hnone]
      rfl
    · cases hpe : processEndpoint t m a with
      | none => rfl
      | some m₁ => exact ih ⟨e, heL, hnone⟩ m₁

/-! ## Lemmas about `mapM` used by page generation -/

lemma mapM_some_mem {α β : Type} (f : α → Option β) :
    ∀ (l : List α) (l' : List β), l.mapM f = some l' →
      ∀ b ∈ l', ∃ a ∈ l, f a = some b := by
  intro l
  induction l with
  | nil =>
    intro l' h b hb
    rw [List.mapM_nil] at h
    obtain rfl : ([] : List β) = l' := Option.some.inj h
    simp at hb
  | cons a l ih =>
    intro l' h b hb
    rw [List.mapM_cons] at h
    cases hfa : f a with
    | none => rw [hfa] at h; simp at h
    | some b₀ =>
      rw [hfa] at h
      cases hrest : l.mapM f with
      | none => rw [hrest] at h; simp at h
      | some bs =>
        rw [hrest] at h
        obtain rfl : b₀ :: bs = l' := by simpa using h
        rcases List.mem_cons.mp hb with rfl | hbs
        · exact ⟨a, List.mem_cons_self a l, hfa⟩
        · obtain ⟨a', ha', hfa'⟩ := ih bs hrest b hbs
          exact ⟨a', List.mem_cons_of_mem a ha', hfa'⟩

lemma mapM_forall₂ {α β : Type} (f : α → Option β) :
    ∀ (l : List α) (l' : List β), l.mapM f = some l' →
      List.Forall₂ (fun a b => f a = some b) l l' := by
  intro l
  induction l with
  | nil =>
    intro l' h
    rw [List.mapM_nil] at h
    obtain rfl : ([] : List β) = l' := Option.some.inj h
    exact List.Forall₂.nil
  | cons a l ih =>
    intro l' h
    rw [List.mapM_cons] at h
    cases hfa : f a with
    | none => rw [hfa] at h; simp at h
    | some b₀ =>
      rw [hfa] at h
      cases hrest : l.mapM f with
      | none => rw [hrest] at h; simp at h
      | some bs =>
        rw [hrest] at h
        obtain rfl : b₀ :: bs = l' := by simpa using h
        exact List.Forall₂.cons hfa (ih bs hrest)

/-! ## Lemmas about endpoint key lists -/

lemma endpointKeys_of_tags_nil (t : Option (List TagObject)) (e : Endpoint)
    (h : e.operationObject.tags = some []) :
    endpointKeys t e = some [TagKey.untagged] := by
  rw [endpointKeys]
  simp only [h, List.mapM_nil]
  rfl

lemma untagged_not_mem_endpointKeys (t : Option (List TagObject)) (e : Endpoint)
    (ts : List String) (hts : e.operationObject.tags = some ts) (hne : ts ≠ [])
    (ks : List TagKey) (h : endpointKeys t e = some ks) :
    TagKey.untagged ∉ ks := by
  cases ts with
  | nil => exact absurd rfl hne
  | cons n ns =>
    cases t with
    | none =>
      rw [endpointKeys] at h
      simp only [hts] at h
      rw [show List.mapM (lookupKey none) (n :: ns) = none from rfl] at h
      simp at h
    | some tags =>
      rw [endpointKeys] at h
      simp only [hts, lookupKey_some] at h
      rw [mapM_some_eq] at h
      obtain rfl : resolveTagName tags n :: ns.map (resolveTagName tags) = ks := by
        simpa using h
      intro hmem
      rcases List.mem_cons.mp hmem with h1 | h2
      · exact resolveTagName_ne_untagged tags n h1.symm
      · obtain ⟨x, -, hx⟩ := List.mem_map.mp h2
        exact resolveTagName_ne_untagged tags x hx

lemma count_flatMap_replicate (c : Endpoint → Nat) :
    ∀ L : List Endpoint, L.Nodup → ∀ e ∈ L,
      (L.flatMap (fun a => List.replicate (c a) a)).count e = c e := by
  intro L
  induction L with
  | nil => intro _ e he; simp at he
  | cons a L ih =>
    intro hnd e he
    obtain ⟨hna, hndL⟩ := List.nodup_cons.mp hnd
    rw [List.flatMap_cons, List.count_append]
    rcases List.mem_cons.mp he with rfl | heL
    · rw [List.count_replicate_self]
      have hz : (L.flatMap (fun a => List.replicate (c a) a)).count e = 0 := by
        rw [List.count_eq_zero]
        intro hmem
        obtain ⟨a', ha', hrep⟩ := List.mem_flatMap.mp hmem
        obtain rfl := List.eq_of_mem_replicate hrep
        exact hna ha'
      rw [hz]
      exact Nat.add_zero _
    · have hea : a ≠ e := fun hEq => hna (hEq ▸ heL)
      rw [List.count_replicate]
      simp only [beq_iff_eq, if_neg hea]
      rw [ih hndL e heL, Nat.zero_add]

lemma string_append_right_cancel {a b c : String} (h : a ++ c = b ++ c) :
    a = b := by
  have hd : a.data ++ c.data = b.data ++ c.data := by
    rw [← String.data_append, ← String.data_append, h]
  have hab : a.data = b.data := List.append_cancel_right hd
  cases a; cases b
  exact congrArg String.mk hab

/-! ## Claim theorems -/

/-- Claim C1 — grouping completeness: for every document on which
`collateTags` succeeds (and whose flattened endpoint list has no duplicate
path/method pairs, as holds for any parsed document), (i) every flattened
endpoint appears in some group of the returned map, (ii) every endpoint in
any group comes from the flattened set, (iii) an endpoint whose operation
declares at least one tag never appears in the untagged group, and (iv) an
endpoint whose operation declares zero tags appears exactly once in the
untagged group. -/
theorem c1_grouping_completeness (api : OpenAPIDocument) (m : TagMap)
    (hm : collateTags api = some m)
    (hnd : (flattenOperations api.paths).Nodup) :
    (∀ e ∈ flattenOperations api.paths, ∃ kg ∈ m, e ∈ kg.2)
    ∧ (∀ kg ∈ m, ∀ e ∈ kg.2, e ∈ flattenOperations api.paths)
    ∧ (∀ e ∈ flattenOperations api.paths, ∀ ts,
        e.operationObject.tags = some ts → ts ≠ [] →
        ∀ g, mapGet m TagKey.untagged = some g → e ∉ g)
    ∧ (∀ e ∈ flattenOperations api.paths, e.operationObject.tags = some [] →
        ∃ g, mapGet m TagKey.untagged = some g ∧ g.count e = 1) := by
  obtain ⟨hget, hkeys, hndk⟩ := collateTags_char api m hm
  refine ⟨?_, ?_, ?_, ?_⟩
  · intro e he
    obtain ⟨ks, hks⟩ := collateTags_mem_keys api m hm e he
    have hksne := endpointKeys_ne_nil api.tags e ks hks
    obtain ⟨k, hk⟩ : ∃ k, k ∈ ks := List.exists_mem_of_ne_nil ks hksne
    have hcnt : 0 < ks.count k := List.count_pos_iff.mpr hk
    have hein : e ∈ groupOf api.tags (flattenOperations api.paths) k := by
      rw [groupOf]
      refine List.mem_flatMap.mpr ⟨e, he, ?_⟩
      rw [hks]
      exact List.mem_replicate.mpr ⟨Nat.pos_iff_ne_zero.mp hcnt, rfl⟩
    have hgne : groupOf api.tags (flattenOperations api.paths) k ≠ [] :=
      List.ne_nil_of_mem hein
    have hmk := hget k
    rw [extendGroup_none_of_ne_nil _ hgne] at hmk
    exact ⟨(k, groupOf api.tags (flattenOperations api.paths) k),
      mem_of_mapGet_eq_some m k _ hmk, hein⟩
  · intro kg hkg e he
    have hg : mapGet m kg.1 = some kg.2 := mapGet_of_mem m hndk kg hkg
    rw [hget kg.1] at hg
    rw [← extendGroup_none_eq_some _ _ hg] at he
    obtain ⟨a, ha, harep⟩ := List.mem_flatMap.mp he
    obtain rfl := List.eq_of_mem_replicate harep
    exact ha
  · intro e he ts hts htne g hg
    rw [hget TagKey.untagged] at hg
    intro hein
    rw [← extendGroup_none_eq_some _ _ hg] at hein
    obtain ⟨a, ha, harep⟩ := List.mem_flatMap.mp hein
    obtain rfl := List.eq_of_mem_replicate harep
    have hpos : ((endpointKeys api.tags e).getD []).count TagKey.untagged ≠ 0 :=
      (List.mem_replicate.mp harep).1
    obtain ⟨ks, hks⟩ := collateTags_mem_keys api m hm e he
    apply hpos
    rw [hks]
    simp only [Option.getD_some]
    exact List.count_eq_zero.mpr
      (untagged_not_mem_endpointKeys api.tags e ts hts htne ks hks)
  · intro e he hts
    have hks := endpointKeys_of_tags_nil api.tags e hts
    have hcnt : (groupOf api.tags (flattenOperations api.paths)
        TagKey.untagged).count e
        = ((endpointKeys api.tags e).getD []).count TagKey.untagged := by
      rw [groupOf]
      exact count_flatMap_replicate
        (fun a => ((endpointKeys api.tags a).getD []).count TagKey.untagged)
        (flattenOperations api.paths) hnd e he
    rw [hks] at hcnt
    simp only [Option.getD_some, count_untagged_singleton] at hcnt
    have hein : e ∈ groupOf api.tags (flattenOperations api.paths)
        TagKey.untagged :=
      List.count_pos_iff.mp (by rw [hcnt]; exact Nat.one_pos)
    have hgne := List.ne_nil_of_mem hein
    refine ⟨groupOf api.tags (flattenOperations api.paths) TagKey.untagged,
      ?_, hcnt⟩
    rw [hget TagKey.untagged, extendGroup_none_of_ne_nil _ hgne]

/-- Witness for C1 at the spec's Pet Store example. -/
theorem c1_grouping_completeness_witness :
    collateTags petStoreDoc = some petStoreMap
    ∧ ((∀ e ∈ flattenOperations petStoreDoc.paths, ∃ kg ∈ petStoreMap, e ∈ kg.2)
      ∧ (∀ kg ∈ petStoreMap, ∀ e ∈ kg.2, e ∈ flattenOperations petStoreDoc.paths)
      ∧ (∀ e ∈ flattenOperations petStoreDoc.paths, ∀ ts,
          e.operationObject.tags = some ts → ts ≠ [] →
          ∀ g, mapGet petStoreMap TagKey.untagged = some g → e ∉ g)
      ∧ (∀ e ∈ flattenOperations petStoreDoc.paths,
          e.operationObject.tags = some [] →
          ∃ g, mapGet petStoreMap TagKey.untagged = some g ∧ g.count e = 1)) :=
  ⟨by decide, c1_grouping_completeness petStoreDoc petStoreMap (by decide)
    (by decide)⟩

/-- Claim C2 (refuted by the code): on a document whose operation
references the undeclared tag name `"missing"`, `collateTags` does not
fail with an `UnknownTagReference` error and does not synthesize a
placeholder tag group — it silently inserts the JS value `undefined`
(key `TagKey.undefinedKey`) into the grouping; the run then dies with a generic
`TypeError` (`tag.name` of `undefined`) during page rendering, modelled by
`runPipeline` returning `none`. -/
theorem c2_unknown_tag_silently_inserts_undefined :
    collateTags missingTagDoc = some [(TagKey.undefinedKey, [missingTagEndpoint])]
    ∧ runPipeline "openapi: 3.0.0" missingTagDoc = none :=
  ⟨rfl, rfl⟩

/-- Claim C3 (refuted by the code): for a tag with no `description` and no
`externalDocs` (here `pets`, and likewise the synthetic untagged tag), the
rendered page does not omit those parts — the template literal interpolates
the JS value `undefined` as the literal text `"undefined"`, twice. -/
theorem c3_absent_fields_render_undefined :
    petsTag.description = none ∧ petsTag.externalDocs = none
    ∧ (createTagPage petsTag [petsEndpoint]).contents
      = "# pets\n\nundefined\n\nundefined\n\n\n\x7b% swagger src=\"./.gitbook/assets/openapi.yaml\" path=\"/pets\" method=\"get\" %\x7d\n[openapi.yaml](<./.gitbook/assets/openapi.yaml>)\n\x7b% endswagger %\x7d" :=
  ⟨rfl, rfl, rfl⟩

/-- Claim C4 (refuted by the code): every embedded-reference block names
`./.gitbook/assets/openapi.yaml` (see `createGitBookOpenAPITag`, built from
`gitbookAssetsSpecRef`), which resolves to archive path
`.gitbook/assets/openapi.yaml`; but `createZipBundle` stores the verbatim
spec at `.gitbook/openapi.yaml`. On the Pet Store run the referenced entry
does not exist while the spec entry does. -/
theorem c4_reference_points_at_missing_entry :
    resolveRelative gitbookAssetsSpecRef = ".gitbook/assets/openapi.yaml"
    ∧ (runPipeline petStoreRaw petStoreDoc).map
        (fun entries =>
          (zipLookup entries (resolveRelative gitbookAssetsSpecRef),
           zipLookup entries ".gitbook/openapi.yaml"))
      = some (none, some petStoreRaw) :=
  ⟨rfl, rfl⟩

/-- Claim C8 — determinism: two runs on identical raw text and identical
parsed documents produce the same logical file set (entry paths) and, at
every path, identical contents. -/
theorem c8_deterministic_bundle (raw₁ raw₂ : String)
    (api₁ api₂ : OpenAPIDocument) (out₁ out₂ : List (String × String))
    (hraw : raw₁ = raw₂) (hapi : api₁ = api₂)
    (h₁ : runPipeline raw₁ api₁ = some out₁)
    (h₂ : runPipeline raw₂ api₂ = some out₂) :
    out₁.map Prod.fst = out₂.map Prod.fst
    ∧ ∀ p, zipLookup out₁ p = zipLookup out₂ p := by
  subst hraw
  subst hapi
  rw [h₁] at h₂
  obtain rfl := Option.some.inj h₂
  exact ⟨rfl, fun _ => rfl⟩

/-- Witness for C8: two Pet Store runs agree on paths and on the
`SUMMARY.md` entry. -/
theorem c8_deterministic_bundle_witness :
    (createZipBundle petStorePages petStoreRaw petStoreDoc).map Prod.fst
      = (createZipBundle petStorePages petStoreRaw petStoreDoc).map Prod.fst
    ∧ zipLookup (createZipBundle petStorePages petStoreRaw petStoreDoc)
        "SUMMARY.md"
      = zipLookup (createZipBundle petStorePages petStoreRaw petStoreDoc)
        "SUMMARY.md" :=
  ⟨(c8_deterministic_bundle petStoreRaw petStoreRaw petStoreDoc petStoreDoc
      (createZipBundle petStorePages petStoreRaw petStoreDoc)
      (createZipBundle petStorePages petStoreRaw petStoreDoc)
      rfl rfl rfl rfl).1,
   (c8_deterministic_bundle petStoreRaw petStoreRaw petStoreDoc petStoreDoc
      (createZipBundle petStorePages petStoreRaw petStoreDoc)
      (createZipBundle petStorePages petStoreRaw petStoreDoc)
      rfl rfl rfl rfl).2 "SUMMARY.md"⟩

/-- Claim C9 — implicit: every generated `SUMMARY.md` starts with the
heading `# Table of contents` followed by a blank line; the page links come
only after that prefix. -/
theorem c9_summary_starts_with_heading (files : List GitBookFile) :
    ∃ rest, createSummaryFile files = "# Table of contents" ++ "\n\n" ++ rest
      ∧ rest = String.intercalate "\n"
          (files.map (fun f => "[" ++ f.path ++ "](" ++ f.path ++ ")")) :=
  ⟨_, rfl, rfl⟩

/-- Claim C10 — implicit: a document containing an operation object with no
`tags` field makes `collateTags` throw (reading `.length` of `undefined`),
so the run aborts with no archive produced. -/
theorem c10_missing_tags_field_aborts (api : OpenAPIDocument) (raw : String)
    (h : ∃ e ∈ flattenOperations api.paths, e.operationObject.tags = none) :
    collateTags api = none ∧ runPipeline raw api = none := by
  have hc : collateTags api = none :=
    foldlM_processEndpoint_none api.tags (flattenOperations api.paths) h []
  refine ⟨hc, ?_⟩
  rw [runPipeline, hc]
  rfl

/-- Witness for C10 at a one-operation document with no `tags` field. -/
theorem c10_missing_tags_field_aborts_witness :
    (∃ e ∈ flattenOperations noTagsFieldDoc.paths,
      e.operationObject.tags = none)
    ∧ (collateTags noTagsFieldDoc = none
      ∧ runPipeline "openapi: 3.0.0" noTagsFieldDoc = none) :=
  ⟨by decide, c10_missing_tags_field_aborts noTagsFieldDoc "openapi: 3.0.0"
    (by decide)⟩

/-- Claim C5 — summary/page correspondence: the generated `SUMMARY.md` is
the heading followed by exactly one `[path](path)` link per emitted page,
in page order (a bijection: no extra links, no omitted pages); the pages
correspond one-to-one, in order, to the entries of the collated map; and
the map's key order is the first-insertion order of keys during
collation. -/
theorem c5_summary_page_correspondence (api : OpenAPIDocument) (m : TagMap)
    (pages : List GitBookFile) (hm : collateTags api = some m)
    (hp : makePagesForTagGroups api m = some pages) :
    createSummaryFile pages
      = "# Table of contents\n\n"
        ++ String.intercalate "\n"
          (pages.map (fun p => "[" ++ p.path ++ "](" ++ p.path ++ ")"))
    ∧ List.Forall₂
        (fun (kg : TagKey × List Endpoint) (p : GitBookFile) =>
          (derefTagKey api kg.1).map (fun t => createTagPage t kg.2) = some p)
        m pages
    ∧ m.map Prod.fst
        = firstOccurrences ((flattenOperations api.paths).flatMap
            (fun e => (endpointKeys api.tags e).getD [])) :=
  ⟨rfl, mapM_forall₂ _ m pages hp, (collateTags_char api m hm).2.1⟩

/-- Witness for C5 at the Pet Store example. -/
theorem c5_summary_page_correspondence_witness :
    (collateTags petStoreDoc = some petStoreMap
      ∧ makePagesForTagGroups petStoreDoc petStoreMap = some petStorePages)
    ∧ (createSummaryFile petStorePages
        = "# Table of contents\n\n"
          ++ String.intercalate "\n"
            (petStorePages.map (fun p => "[" ++ p.path ++ "](" ++ p.path ++ ")"))
      ∧ List.Forall₂
          (fun (kg : TagKey × List Endpoint) (p : GitBookFile) =>
            (derefTagKey petStoreDoc kg.1).map
              (fun t => createTagPage t kg.2) = some p)
          petStoreMap petStorePages
      ∧ petStoreMap.map Prod.fst
          = firstOccurrences ((flattenOperations petStoreDoc.paths).flatMap
              (fun e => (endpointKeys petStoreDoc.tags e).getD []))) :=
  ⟨⟨by decide, rfl⟩,
   c5_summary_page_correspondence petStoreDoc petStoreMap petStorePages
     (by decide) rfl⟩

/-- Claim C6 — verbatim embedding: whatever the raw input text is (JSON or
YAML syntax makes no difference: the pipeline never inspects it), the
archive entry at the reserved path `.gitbook/openapi.yaml` holds exactly
that raw text. -/
theorem c6_verbatim_spec_entry (raw : String) (api : OpenAPIDocument)
    (entries : List (String × String)) (h : runPipeline raw api = some entries) :
    zipLookup entries ".gitbook/openapi.yaml" = some raw := by
  rw [runPipeline] at h
  cases hm : collateTags api with
  | none => rw [hm] at h; simp at h
  | some m =>
    rw [hm] at h
    replace h : makePagesForTagGroups api m >>=
        (fun pages => pure (createZipBundle pages raw api)) = some entries := h
    cases hp : makePagesForTagGroups api m with
    | none => rw [hp] at h; simp at h
    | some pages =>
      rw [hp] at h
      obtain rfl : createZipBundle pages raw api = entries := by simpa using h
      rw [createZipBundle, zipLookup]
      simp [List.find?]

/-- Witness for C6 at the Pet Store example. -/
theorem c6_verbatim_spec_entry_witness :
    runPipeline petStoreRaw petStoreDoc
      = some (createZipBundle petStorePages petStoreRaw petStoreDoc)
    ∧ zipLookup (createZipBundle petStorePages petStoreRaw petStoreDoc)
        ".gitbook/openapi.yaml" = some petStoreRaw :=
  ⟨rfl, c6_verbatim_spec_entry petStoreRaw petStoreDoc
    (createZipBundle petStorePages petStoreRaw petStoreDoc) rfl⟩

/-- Claim C7 — untagged suppression: when every operation declares at least
one tag (and no declared tag reuses the reserved internal name), the
synthetic untagged key is never inserted into the grouping and no emitted
page has the untagged page's path, so `SUMMARY.md` (whose links are exactly
the emitted pages' paths, claim C5) contains no reference to it. -/
theorem c7_untagged_suppression (api : OpenAPIDocument) (m : TagMap)
    (pages : List GitBookFile)
    (hm : collateTags api = some m)
    (hp : makePagesForTagGroups api m = some pages)
    (htagged : ∀ e ∈ flattenOperations api.paths,
        ∃ ts, e.operationObject.tags = some ts ∧ ts ≠ [])
    (hres : ∀ t ∈ api.tags.getD [], t.name ≠ "__internal-untagged") :
    mapGet m TagKey.untagged = none
    ∧ TagKey.untagged ∉ m.map Prod.fst
    ∧ ∀ p ∈ pages, p.path ≠ "__internal-untagged.md" := by
  obtain ⟨hget, -, -⟩ := collateTags_char api m hm
  have hnone : mapGet m TagKey.untagged = none := by
    rw [hget TagKey.untagged]
    have hempty : groupOf api.tags (flattenOperations api.paths)
        TagKey.untagged = [] := by
      rw [groupOf]
      rw [List.flatMap_eq_nil_iff]
      intro e he
      obtain ⟨ts, hts, htne⟩ := htagged e he
      obtain ⟨ks, hks⟩ := collateTags_mem_keys api m hm e he
      rw [hks]
      simp only [Option.getD_some]
      rw [List.count_eq_zero.mpr
        (untagged_not_mem_endpointKeys api.tags e ts hts htne ks hks)]
      rfl
    rw [hempty, extendGroup_nil]
  refine ⟨hnone, (mapGet_eq_none_iff m TagKey.untagged).mp hnone, ?_⟩
  intro p hpmem
  obtain ⟨kg, hkg, hf⟩ := mapM_some_mem _ m pages hp p hpmem
  cases hk : kg.1 with
  | undefinedKey =>
    rw [hk] at hf
    simp [derefTagKey] at hf
  | untagged =>
    exfalso
    have hmemk : TagKey.untagged ∈ m.map Prod.fst := by
      rw [← hk]
      exact List.mem_map_of_mem Prod.fst hkg
    exact (mapGet_eq_none_iff m TagKey.untagged).mp hnone hmemk
  | declared i =>
    rw [hk] at hf
    simp only [derefTagKey] at hf
    cases hti : (api.tags.getD []).get? i with
    | none => rw [hti] at hf; simp at hf
    | some t =>
      rw [hti] at hf
      obtain rfl : createTagPage t kg.2 = p := by simpa using hf
      intro hpath
      have hname : t.name = "__internal-untagged" := by
        apply string_append_right_cancel (c := ".md")
        rw [show ("__internal-untagged" ++ ".md" : String)
              = "__internal-untagged.md" from rfl]
        exact hpath
      exact hres t (List.get?_mem hti) hname

/-- Witness for C7 at a document whose single operation is tagged. -/
theorem c7_untagged_suppression_witness :
    (collateTags allTaggedDoc = some [(TagKey.declared 0, [petsEndpoint])]
      ∧ makePagesForTagGroups allTaggedDoc [(TagKey.declared 0, [petsEndpoint])]
          = some [createTagPage petsTag [petsEndpoint]])
    ∧ (mapGet [(TagKey.declared 0, [petsEndpoint])] TagKey.untagged = none
      ∧ TagKey.untagged ∉
          ([(TagKey.declared 0, [petsEndpoint])] : TagMap).map Prod.fst
      ∧ ∀ p ∈ [createTagPage petsTag [petsEndpoint]],
          p.path ≠ "__internal-untagged.md") :=
  ⟨⟨by decide, rfl⟩,
   c7_untagged_suppression allTaggedDoc [(TagKey.declared 0, [petsEndpoint])]
     [createTagPage petsTag [petsEndpoint]] (by decide) rfl (by decide)
     (by decide)⟩

end OpenAPIAutodoc
